import Mathlib

/-!
# Velociraptor triage collector: the compilation pipeline

A shallow embedding of `compiler/compiler.go`, `compiler/template.go` and `api/api.go`,
followed by theorems about the sanitizer, legacy normalisation, validation, the synthesis of
the `_All` target, dependency extraction, indentation and the sorted render projection.

Conventions of the embedding:

* A Go `string` is the list of its characters.  Every function below inspects only ASCII
  characters (`$`, letters, digits, `_`, space, `.`, `/`, newline, `(` and ASCII white space).
  Such a character is one byte in UTF-8 and never occurs inside the encoding of another
  character, so reading the string by bytes or by characters gives the same result, and the
  byte-wise order of Go strings is the lexicographic order of the character lists.
* A Go slice is a list; `append` adds at the end; a `nil` slice is the empty list.
* Pointers to `TargetFile` and `TargetRule` are replaced by values: every document and every
  rule is created once and is reachable from one place in the store only.
* A Go `error` is its message; a method that mutates the compiler returns the new compiler.
* Library functions that are not part of the repository (`regexp`, `strings`, `path/filepath`,
  `sort`, `ordereddict`) are written out for the arguments that the program passes to them.
-/

/-- A Go string, as the sequence of its characters. -/
abbrev GoString := List Char

/-- A Go `error` value that is not nil, as its message. -/
abbrev GoError := GoString

/-- A Go `[]byte`. -/
abbrev Bytes := List Nat

/-! ## api/api.go -/

/-- The struct `api.TargetRule`. -/
structure TargetRule where
  Name : GoString := []
  Category : GoString := []
  Comment : GoString := []
  Ref : GoString := []
  Glob : GoString := []
  VQL : GoString := []
  Path : GoString := []
  FileMask : GoString := []
  Recursive : Bool := false
  AlwaysAddToQueue : Bool := false
  SaveAsFileName : GoString := []
  file : GoString := []
deriving DecidableEq

/-- The struct `api.TargetFile`. -/
structure TargetFile where
  Name : GoString := []
  Description : GoString := []
  Author : GoString := []
  RecreateDirectories : Bool := false
  Targets : List TargetRule := []
  Rules : List TargetRule := []
  Version : GoString := []
  Id : GoString := []
  Preamble : GoString := []
deriving DecidableEq

/-- The struct `api.Config`. -/
structure Config where
  Name : GoString := []
  Description : GoString := []
  TargetDirectories : List GoString := []
  TargetRegex : GoString := []
  ArtifactTemplate : GoString := []
  RegExToGlob : List (GoString × GoString) := []
  Output : List GoString := []
  StateFile : GoString := []
  PathSep : GoString := []
  Transformer : GoString := []
  SkipFiles : List GoString := []
  Debug : Bool := false
  MakeAllTarget : Bool := false
deriving DecidableEq

/-! ## The ordered dictionary holding the targets -/

/-- The insertion-ordered dictionary `ordereddict.Dict` with `*api.TargetFile` values: the list
of its items in iteration order. -/
abbrev Dict := List (GoString × TargetFile)

/-- The method `Dict.Set`: the value is stored under the key; a key that was already present is
taken out of its old place and the item goes to the end. -/
def Dict.Set (d : Dict) (key : GoString) (value : TargetFile) : Dict :=
  d.filter (fun item => item.1 ≠ key) ++ [(key, value)]

/-- The method `Dict.Get`. -/
def Dict.Get (d : Dict) (key : GoString) : Option TargetFile :=
  (d.find? (fun item => item.1 = key)).map (fun item => item.2)

/-- The method `Dict.Values`: the values in iteration order. -/
def Dict.Values (d : Dict) : List TargetFile :=
  d.map (fun item => item.2)

/-- The method `Dict.Keys`: the keys in iteration order. -/
def Dict.Keys (d : Dict) : List GoString :=
  d.map (fun item => item.1)

/-! ## compiler/compiler.go -/

/-- The struct `Compiler` (its logger left out). `deps` is the key set of the Go map
`map[string]bool`, every stored value of which is `true`. -/
structure Compiler where
  config_obj : Config := {}
  targets : Dict := []
  template : GoString := []
  deps : List GoString := []
deriving DecidableEq

/-! ### strings and path/filepath -/

/-- The call `strings.Split(s, sep)` for a separator of one character: the pieces between the
occurrences of `sep`, one more than there are occurrences. -/
def strings_Split (s : GoString) (sep : Char) : List GoString :=
  match s with
  | [] => [[]]
  | c :: cs =>
    if c = sep then [] :: strings_Split cs sep
    else
      match strings_Split cs sep with
      | seg :: segs => (c :: seg) :: segs
      | [] => [[c]]

/-- The call `strings.Join(elems, sep)`. -/
def strings_Join : List GoString → GoString → GoString
  | [], _ => []
  | [a], _ => a
  | a :: b :: rest, sep => a ++ sep ++ strings_Join (b :: rest) sep

/-- The call `strings.Repeat(s, count)`; it panics on a negative count (`none`). -/
def strings_Repeat (s : GoString) (count : Int) : Option GoString :=
  if count < 0 then none else some (List.replicate count.toNat s).flatten

/-- The call `strings.ReplaceAll(s, old, new)` for `old` and `new` of one character each. -/
def strings_ReplaceAll (s : GoString) (old new : Char) : GoString :=
  s.map (fun c => if c = old then new else c)

/-- The call `filepath.Base(path)` with `/` as the separator: trailing separators are dropped,
then the last element is taken; an empty path gives `.`, a path of separators only gives `/`. -/
def filepath_Base (path : GoString) : GoString :=
  if path = [] then ['.']
  else
    let stripped := (path.reverse.dropWhile (fun c => c = '/')).reverse
    let last := (stripped.reverse.takeWhile (fun c => c ≠ '/')).reverse
    if last = [] then ['/'] else last

/-- Element 0 of a Go slice that is known not to be empty. -/
def index0 (l : List GoString) : GoString :=
  match l with
  | x :: _ => x
  | [] => []

/-- The method `Compiler.LoadRule`. `UnmarshalStrict` is the YAML parser, which fills a fresh
`TargetFile` from the bytes or fails. -/
def LoadRule (UnmarshalStrict : Bytes → Except GoError TargetFile) (self : Compiler)
    (data : Bytes) (path : GoString) : Compiler × Option GoError :=
  match UnmarshalStrict data with
  | .error err => (self, some err)
  | .ok parsed =>
    let target_file : TargetFile :=
      if parsed.Name = [] then
        { parsed with Name := index0 (strings_Split (filepath_Base path) '.') }
      else parsed
    if target_file.Rules.length > 0 ∨ target_file.Targets.length > 0 then
      ({ self with targets := self.targets.Set target_file.Name target_file }, none)
    else (self, none)

/-- The method `Compiler.clearLagcyTargetFile`. -/
def clearLagcyTargetFile (tf : TargetFile) : TargetFile :=
  { tf with
    Rules := tf.Rules ++ tf.Targets
    Targets := []
    Id := []
    RecreateDirectories := false
    Version := [] }

/-- One call of `ValidateRule`: the compiler as it is at the time of the call, the rule and the
target file the rule belongs to. -/
abbrev RuleCheck := Compiler × TargetRule × TargetFile

/-- The inner loop of `validate` over the rules of one target file.  The result is the list of
calls made to `ValidateRule` and the error of the first rejected rule, if any. -/
def validate_rules (ValidateRule : Compiler → TargetRule → TargetFile → Option GoError)
    (self : Compiler) (tf : TargetFile) : List TargetRule → List RuleCheck × Option GoError
  | [] => ([], none)
  | t :: rest =>
    match ValidateRule self t tf with
    | some err => ([(self, t, tf)], some err)
    | none =>
      let r := validate_rules ValidateRule self tf rest
      ((self, t, tf) :: r.1, r.2)

/-- The outer loop of `validate`.  `done` are the items of the store already visited (and
normalised in place), the last argument the items still to visit.  The result is the compiler
when the loop ends, the calls made to `ValidateRule`, and the error returned. -/
def validate_targets (ValidateRule : Compiler → TargetRule → TargetFile → Option GoError)
    (self : Compiler) (done : Dict) : Dict → Compiler × List RuleCheck × Option GoError
  | [] => ({ self with targets := done }, [], none)
  | (key, t_file) :: rest =>
    let tf := clearLagcyTargetFile t_file
    let cur : Compiler := { self with targets := done ++ (key, tf) :: rest }
    match validate_rules ValidateRule cur tf tf.Rules with
    | (calls, some err) => (cur, calls, some err)
    | (calls, none) =>
      let r := validate_targets ValidateRule self (done ++ [(key, tf)]) rest
      (r.1, calls ++ r.2.1, r.2.2)

/-- The method `Compiler.validate`.  `ValidateRule` is the per-rule check, a method of the
compiler whose body is not among the files embedded here; it is a parameter.  Besides the
compiler and the error, the result lists the calls made to `ValidateRule`, in order. -/
def validate (ValidateRule : Compiler → TargetRule → TargetFile → Option GoError)
    (self : Compiler) : Compiler × List RuleCheck × Option GoError :=
  let self1 : Compiler :=
    if self.config_obj.PathSep = [] then
      { self with config_obj := { self.config_obj with PathSep := ['/'] } }
    else self
  validate_targets ValidateRule self1 [] self1.targets

/-- The block of `Compiler.loadConfig` that runs after the target directories are loaded and
synthesises the `_All` target when `MakeAllTarget` is set. -/
def loadConfig_MakeAllTarget (self : Compiler) : Compiler :=
  if self.config_obj.MakeAllTarget then
    let new_target : TargetFile :=
      self.targets.foldl
        (fun (acc : TargetFile) item =>
          { acc with Targets := acc.Targets ++ [{ Name := item.2.Name, Ref := item.2.Name }] })
        { Name := "_All".toList }
    { self with targets := self.targets.Set "_All".toList new_target }
  else self

/-! ## compiler/template.go -/

/-- The struct `RuleCSV`. -/
structure RuleCSV where
  Target : GoString := []
  Name : GoString := []
  Description : GoString := []
  Glob : GoString := []
  Ref : GoString := []
  VQL : GoString := []
deriving DecidableEq

/-- The struct `TargetCSV`. -/
structure TargetCSV where
  Name : GoString := []
  Description : GoString := []
  Preamble : GoString := []
deriving DecidableEq

/-- The struct `ArtifactContent`, the projection handed to the template engine. -/
structure ArtifactContent where
  Time : GoString := []
  Commit : GoString := []
  Rules : List RuleCSV := []
  TargetFiles : List TargetCSV := []
  Config : Config := {}
  Dependencies : List GoString := []
deriving DecidableEq

/-- A value of Go type `interface{}` as the template functions receive it. -/
inductive GoValue where
  | str (s : GoString)
  | int (n : Int)
  | other
deriving DecidableEq

/-- The function `indent`; `none` stands for the panic of `strings.Repeat`. -/
def indent (text : GoString) (indent_size : Int) : Option GoString :=
  match strings_Repeat [' '] indent_size with
  | none => none
  | some indent_str =>
    let lines := strings_Split text '\n'
    let result := lines.foldl (fun (acc : List GoString) l => acc ++ [indent_str ++ l]) []
    some (strings_Join result ['\n'])

/-- The function `indentTemplate`, registered as the template function `Indent`. -/
def indentTemplate (args : List GoValue) : Option GoValue :=
  match args with
  | [a0, a1] =>
    match a0 with
    | GoValue.str template =>
      match a1 with
      | GoValue.int indent_size => (indent template indent_size).map GoValue.str
      | _ => some (GoValue.str template)
    | _ => some (GoValue.str [])
  | _ => some (GoValue.str [])

/-- Membership in the character class `[a-zA-Z0-9]`. -/
def isAlnum (c : Char) : Bool :=
  ('a' ≤ c && c ≤ 'z') || ('A' ≤ c && c ≤ 'Z') || ('0' ≤ c && c ≤ '9')

/-- The regular expression `sanitizeRegex`, which is `[^a-zA-Z0-9]+`, matched at the head of
`s`: the length of the match, which by greediness is the whole run of characters outside the
class, or `none` when the run is empty. -/
def sanitizeRegex_match (s : GoString) : Option Nat :=
  match s.takeWhile (fun c => !isAlnum c) with
  | [] => none
  | c :: run => some (c :: run).length

/-- The call `sanitizeRegex.ReplaceAllString(src, repl)` for a replacement without `$`: the
text is scanned from the left, every match found is replaced by `repl` and the scan goes on
behind the match.  The first argument counts the characters of the current match that are
still to be skipped. -/
def sanitizeRegex_ReplaceAllString (repl : GoString) : Nat → GoString → GoString
  | _, [] => []
  | k + 1, _ :: cs => sanitizeRegex_ReplaceAllString repl k cs
  | 0, c :: cs =>
    match sanitizeRegex_match (c :: cs) with
    | some n => repl ++ sanitizeRegex_ReplaceAllString repl (n - 1) cs
    | none => c :: sanitizeRegex_ReplaceAllString repl 0 cs

/-- The function `sanitize`. -/
def sanitize (s : GoString) : GoString :=
  let s1 :=
    match s with
    | c :: rest => if c = '$' then rest else s
    | [] => s
  sanitizeRegex_ReplaceAllString ['_'] 0 s1

/-- Membership in the character class `\s` of Go regular expressions. -/
def isSpace (c : Char) : Bool :=
  c = '\t' || c = '\n' || c = '\x0c' || c = '\r' || c = ' '

/-- Membership in the character class `[^\s\(]`. -/
def isNameChar (c : Char) : Bool :=
  !isSpace c && c != '('

/-- The regular expression `artifact_in_query_regex`, which is `Artifact\.([^\s\(]+)\(`,
matched at the head of `s`: the text of the group and the length of the whole match.  The
group is greedy and its class excludes `(`, so the group is the whole run of class characters
and the match exists only when that run is not empty and `(` follows it. -/
def artifact_in_query_regex_match (s : GoString) : Option (GoString × Nat) :=
  if "Artifact.".toList.isPrefixOf s then
    let rest := s.drop 9
    let run := rest.takeWhile isNameChar
    match run, rest.drop run.length with
    | _ :: _, '(' :: _ => some (run, 9 + run.length + 1)
    | _, _ => none
  else none

/-- The call `artifact_in_query_regex.FindAllStringSubmatch(query, -1)`, reduced to element 1
of every hit: the matches are found from the left and do not overlap.  The first argument
counts the characters of the current match that are still to be skipped. -/
def artifact_in_query_regex_FindAllStringSubmatch : Nat → GoString → List GoString
  | _, [] => []
  | k + 1, _ :: cs => artifact_in_query_regex_FindAllStringSubmatch k cs
  | 0, c :: cs =>
    match artifact_in_query_regex_match (c :: cs) with
    | some (name, n) => name :: artifact_in_query_regex_FindAllStringSubmatch (n - 1) cs
    | none => artifact_in_query_regex_FindAllStringSubmatch 0 cs

/-- The assignment `deps[key] = true` on the key set of the map. -/
def deps_set (deps : List GoString) (key : GoString) : List GoString :=
  if key ∈ deps then deps else deps ++ [key]

/-- The method `Compiler.GetDependentArtifacts`, on the dependency set. -/
def GetDependentArtifacts (deps : List GoString) (query : GoString) : List GoString :=
  (artifact_in_query_regex_FindAllStringSubmatch 0 query).foldl deps_set deps

/-- The insertion step of the standard library's `insertionSortLessFunc`: the new element `x`
is swapped towards the front for as long as `less x y` holds for its left neighbour `y`.  The
sorted part is passed back to front. -/
def insertionSort_step {α : Type} (less : α → α → Bool) (x : α) : List α → List α
  | [] => [x]
  | y :: ys => if less x y then y :: insertionSort_step less x ys else x :: y :: ys

/-- The call `sort.Slice(data, less)`, written as the insertion sort that the standard library
runs on slices of at most twelve elements.  On longer slices the library runs a quicksort
variant; it too returns a permutation in which no element is `less` than an earlier one, and
like insertion sort it makes no promise about elements that compare equal. -/
def sort_Slice {α : Type} (less : α → α → Bool) (data : List α) : List α :=
  (data.foldl (fun sorted x => insertionSort_step less x sorted) []).reverse

/-- The record that `GetArtifact` appends for the target `target_file`. -/
def targetRecord (target_file : TargetFile) : TargetCSV :=
  { Name := sanitize target_file.Name
    Description := target_file.Description
    Preamble := target_file.Preamble }

/-- The record that `GetArtifact` appends for the rule `t` of `target_file`. -/
def ruleRecord (target_file : TargetFile) (t : TargetRule) : RuleCSV :=
  { Target := sanitize target_file.Name
    Description := t.Comment
    Name := sanitize t.Name
    Glob := t.Glob
    Ref := sanitize t.Ref
    VQL := t.VQL }

/-- The sort key of a rule record in `GetArtifact`. -/
def ruleKey (r : RuleCSV) : GoString :=
  r.Target ++ r.Name

/-- The sort key of a target record in `GetArtifact`. -/
def targetKey (t : TargetCSV) : GoString :=
  strings_ReplaceAll t.Name '_' ' '

/-- The flattening loop of `GetArtifact` over the values of the store: the target records, the
rule records and the dependency set it leaves. -/
def GetArtifact_flatten (targets : Dict) (deps : List GoString) :
    List TargetCSV × List RuleCSV × List GoString :=
  targets.Values.foldl
    (fun acc target_file =>
      target_file.Rules.foldl
        (fun acc2 t =>
          (acc2.1, acc2.2.1 ++ [ruleRecord target_file t],
            if t.VQL ≠ [] then GetDependentArtifacts acc2.2.2 t.VQL else acc2.2.2))
        (acc.1 ++ [targetRecord target_file], acc.2.1, acc.2.2))
    ([], [], deps)

/-- The method `Compiler.GetArtifact` up to the call of the template engine: the compiler
afterwards and the projection passed to `calculateTemplate`.  The time and the commit are read
from the environment and are parameters here. -/
def GetArtifact (now commit : GoString) (self : Compiler) : Compiler × ArtifactContent :=
  let flat := GetArtifact_flatten self.targets self.deps
  let rules := sort_Slice (fun r1 r2 => decide (ruleKey r1 < ruleKey r2)) flat.2.1
  let target_files := sort_Slice (fun t1 t2 => decide (targetKey t1 < targetKey t2)) flat.1
  ({ self with deps := flat.2.2 },
    { Time := now
      Commit := commit
      Config := self.config_obj
      Dependencies := flat.2.2
      Rules := rules
      TargetFiles := target_files })

/-! ## Definitions that follow the wording of the specification -/

/-- The sanitizer as the specification words it: one leading `$` is removed if there is one,
the rest is cut into maximal runs of characters that are all inside or all outside
`[A-Za-z0-9]`, and every run outside the class is replaced by a single `_`. -/
def sanitizeSpec (s : GoString) : GoString :=
  let stripped :=
    match s with
    | '$' :: rest => rest
    | _ => s
  let runs := stripped.splitBy (fun a b => isAlnum a == isAlnum b)
  (runs.map (fun run => if run.all isAlnum then run else ['_'])).flatten

/-- Membership in the character class `[A-Za-z0-9_]`. -/
def isIdentChar (c : Char) : Bool :=
  isAlnum c || c = '_'

/-- The rule records of a store before sorting: one per rule of every target, in store order
and then rule order. -/
def flatRules (targets : Dict) : List RuleCSV :=
  targets.Values.flatMap (fun tf => tf.Rules.map (ruleRecord tf))

/-- The target records of a store before sorting: one per target, in store order. -/
def flatTargets (targets : Dict) : List TargetCSV :=
  targets.Values.map targetRecord

/-- The identifier `name` occurs in `query` immediately preceded by `Artifact.` and immediately
followed by `(`; an identifier is a non-empty string without white space and without `(`. -/
def occursAsCall (query name : GoString) : Prop :=
  name ≠ [] ∧ (∀ c ∈ name, isNameChar c = true) ∧
    ∃ before after, query = before ++ "Artifact.".toList ++ name ++ '(' :: after

/-- The state of the compiler when `validate` checks the rules of item `i` of the store: the
path separator has its default and the items up to and including `i` are normalised. -/
def validate_stateAt (self : Compiler) (i : Nat) : Compiler :=
  { self with
    config_obj :=
      if self.config_obj.PathSep = [] then { self.config_obj with PathSep := ['/'] }
      else self.config_obj
    targets :=
      (self.targets.take (i + 1)).map (fun item => (item.1, clearLagcyTargetFile item.2))
        ++ self.targets.drop (i + 1) }

/-- All the rule checks that `validate` can make, in store order and then rule order; the rules
of a target are its `Rules` followed by its legacy `Targets`. -/
def validate_allChecks (self : Compiler) : List RuleCheck :=
  (List.range self.targets.length).flatMap (fun i =>
    match self.targets[i]? with
    | some item =>
      (item.2.Rules ++ item.2.Targets).map
        (fun t => (validate_stateAt self i, t, clearLagcyTargetFile item.2))
    | none => [])

/-- The text with `n` spaces in front of every line, in the words of the specification: the
lines are the pieces between the newlines (the library's `List.splitOn`), and they are put
together again with a newline between them (the library's `List.intercalate`). -/
def indentSpec (text : GoString) (n : Nat) : GoString :=
  ['\n'].intercalate ((text.splitOn '\n').map (fun line => List.replicate n ' ' ++ line))

/-! ## Concrete stores used in the examples -/

/-- The target `A` with the single rule `BC`. -/
def orderExample_docA : TargetFile :=
  { Name := "A".toList, Rules := [{ Name := "BC".toList, Glob := "/one".toList }] }

/-- The target `AB` with the single rule `C`. -/
def orderExample_docAB : TargetFile :=
  { Name := "AB".toList, Rules := [{ Name := "C".toList, Glob := "/two".toList }] }

/-- A store holding `A` and then `AB`. -/
def orderExample_run1 : Compiler :=
  { targets := [("A".toList, orderExample_docA), ("AB".toList, orderExample_docAB)] }

/-- The documents of `orderExample_run1`, enumerated in the opposite order. -/
def orderExample_run2 : Compiler :=
  { targets := [("AB".toList, orderExample_docAB), ("A".toList, orderExample_docA)] }

/-- The target `Logs` with the single rule `Syslog`. -/
def orderExample_docLogs : TargetFile :=
  { Name := "Logs".toList, Rules := [{ Name := "Syslog".toList, Glob := "/var/log".toList }] }

/-- The target `Browsers` with the single rule `Chrome`. -/
def orderExample_docBrowsers : TargetFile :=
  { Name := "Browsers".toList
    Rules := [{ Name := "Chrome".toList, Glob := "/home/user/.config".toList }] }

/-- A store holding `Logs` and then `Browsers`. -/
def orderExample_run3 : Compiler :=
  { targets :=
      [("Logs".toList, orderExample_docLogs), ("Browsers".toList, orderExample_docBrowsers)] }

/-- The documents of `orderExample_run3`, enumerated in the opposite order. -/
def orderExample_run4 : Compiler :=
  { targets :=
      [("Browsers".toList, orderExample_docBrowsers), ("Logs".toList, orderExample_docLogs)] }

/-- A store holding the targets `AB`, `A_B` and `A0`, in this order, each with one rule `r`. -/
def underscoreExample : Compiler :=
  { targets :=
      [("AB".toList, { Name := "AB".toList, Rules := [{ Name := "r".toList }] }),
       ("A_B".toList, { Name := "A_B".toList, Rules := [{ Name := "r".toList }] }),
       ("A0".toList, { Name := "A0".toList, Rules := [{ Name := "r".toList }] })] }

/-- A store in which a loaded document is itself named `_All`, followed by the target `Z`, in a
compiler whose configuration sets `MakeAllTarget`. -/
def selfReferenceExample : Compiler :=
  { config_obj := { MakeAllTarget := true }
    targets :=
      [("_All".toList,
          { Name := "_All".toList
            Rules := [{ Name := "Everything".toList, Glob := "/data".toList }] }),
       ("Z".toList,
          { Name := "Z".toList, Rules := [{ Name := "z".toList, Glob := "/z".toList }] })] }

/-- The name the specification gives a parsed document: its own `Name` when that is not empty,
otherwise the base name of the file cut at its first `.`. -/
def documentName (d : TargetFile) (path : GoString) : GoString :=
  if d.Name = [] then (filepath_Base path).takeWhile (fun c => c ≠ '.') else d.Name

/-- The result of one call of `ValidateRule`. -/
def runCheck (ValidateRule : Compiler → TargetRule → TargetFile → Option GoError)
    (c : RuleCheck) : Option GoError :=
  ValidateRule c.1 c.2.1 c.2.2

/-- A parsed document without a name, holding one legacy rule. -/
def loadExample_doc : TargetFile :=
  { Targets := [{ Name := "Event logs".toList, Path := "/var/log".toList }] }

/-- A loop over the checks `all` stops at the first rejection: with no error every check was
made and none rejects; with error `e` the calls made are the checks up to and including the
first rejected one, and `e` is the error of that check. -/
def StopsAtFirstRejection {X E : Type} (ok : X → Option E) (all calls : List X)
    (err : Option E) : Prop :=
  (err = none → calls = all ∧ ∀ x ∈ all, ok x = none) ∧
  (∀ e, err = some e → ∃ pre c post, all = pre ++ c :: post ∧ calls = pre ++ [c] ∧
    (∀ x ∈ pre, ok x = none) ∧ ok c = some e)

/-- The store item with its document normalised. -/
def normalizeItem (item : GoString × TargetFile) : GoString × TargetFile :=
  (item.1, clearLagcyTargetFile item.2)

/-- The store of `orderExample_run3` in a compiler whose configuration sets `MakeAllTarget`. -/
def allExample : Compiler :=
  { orderExample_run3 with config_obj := { MakeAllTarget := true } }

/-! # Theorems -/

/-! ## The sanitizer -/

theorem splitBy_loop_class {α : Type} (cls : α → Bool) (l : List α) (b : α) (g : List α)
    (gs : List (List α)) :
    List.splitBy.loop (fun x y => cls x == cls y) l b g gs
      = gs.reverse ++ (g.reverse ++ b :: l.takeWhile (fun x => cls b == cls x))
          :: List.splitBy (fun x y => cls x == cls y) (l.dropWhile (fun x => cls b == cls x)) := by
  induction l generalizing b g gs with
  | nil => simp [List.splitBy.loop, List.splitBy]
  | cons a as ih =>
    by_cases h : cls b = cls a
    · simp [List.splitBy.loop, h, ih]
    · have h2 : (cls b == cls a) = false := by simpa using h
      simp [List.splitBy.loop, h2, ih, List.splitBy]

theorem splitBy_class_cons {α : Type} (cls : α → Bool) (a : α) (l : List α) :
    List.splitBy (fun x y => cls x == cls y) (a :: l)
      = (a :: l.takeWhile (fun x => cls a == cls x))
          :: List.splitBy (fun x y => cls x == cls y) (l.dropWhile (fun x => cls a == cls x)) := by
  rw [List.splitBy, splitBy_loop_class]; simp

theorem drop_length_takeWhile {α : Type} (p : α → Bool) (l : List α) :
    l.drop (l.takeWhile p).length = l.dropWhile p := by
  induction l with
  | nil => rfl
  | cons a as ih =>
    by_cases h : p a = true
    · simp [List.takeWhile, List.dropWhile, h, ih]
    · simp [List.takeWhile, List.dropWhile, h]

theorem replaceAll_skip (repl : GoString) (k : Nat) (s : GoString) :
    sanitizeRegex_ReplaceAllString repl k s = sanitizeRegex_ReplaceAllString repl 0 (s.drop k) := by
  induction s generalizing k with
  | nil => simp [sanitizeRegex_ReplaceAllString]
  | cons c cs ih =>
    cases k with
    | zero => simp
    | succ k => simp [sanitizeRegex_ReplaceAllString, ih k]

theorem replaceAll_cons_alnum (repl : GoString) (c : Char) (cs : GoString)
    (h : isAlnum c = true) :
    sanitizeRegex_ReplaceAllString repl 0 (c :: cs)
      = c :: sanitizeRegex_ReplaceAllString repl 0 cs := by
  simp [sanitizeRegex_ReplaceAllString, sanitizeRegex_match, List.takeWhile, h]

theorem replaceAll_cons_other (repl : GoString) (c : Char) (cs : GoString)
    (h : isAlnum c = false) :
    sanitizeRegex_ReplaceAllString repl 0 (c :: cs)
      = repl ++ sanitizeRegex_ReplaceAllString repl 0 (cs.dropWhile (fun x => !isAlnum x)) := by
  simp only [sanitizeRegex_ReplaceAllString, sanitizeRegex_match, List.takeWhile, h, Bool.not_false]
  rw [replaceAll_skip, List.length_cons, Nat.add_sub_cancel, drop_length_takeWhile]

theorem replaceAll_alnum_run (repl : GoString) (run rest : GoString)
    (h : ∀ c ∈ run, isAlnum c = true) :
    sanitizeRegex_ReplaceAllString repl 0 (run ++ rest)
      = run ++ sanitizeRegex_ReplaceAllString repl 0 rest := by
  induction run with
  | nil => rfl
  | cons c cs ih =>
    have hc : isAlnum c = true := h c (List.mem_cons_self _ _)
    rw [List.cons_append, replaceAll_cons_alnum _ _ _ hc,
      ih (fun x hx => h x (List.mem_cons_of_mem _ hx)), List.cons_append]

theorem replaceAll_eq_runs (n : Nat) (s : GoString) (hn : s.length ≤ n) :
    sanitizeRegex_ReplaceAllString ['_'] 0 s
      = ((s.splitBy (fun a b => isAlnum a == isAlnum b)).map
          (fun run => if run.all isAlnum then run else ['_'])).flatten := by
  induction n generalizing s with
  | zero =>
    have : s = [] := List.length_eq_zero.mp (Nat.le_zero.mp hn)
    subst this; rfl
  | succ n ih =>
    cases s with
    | nil => rfl
    | cons c cs =>
      have hlen : (cs.dropWhile (fun x => isAlnum c == isAlnum x)).length ≤ n := by
        have h1 := (List.dropWhile_sublist (fun x => isAlnum c == isAlnum x) (l := cs)).length_le
        simp only [List.length_cons] at hn
        omega
      rw [splitBy_class_cons, List.map_cons, List.flatten_cons, ← ih _ hlen]
      cases hc : isAlnum c with
      | true =>
        have hall : (c :: cs.takeWhile (fun x => true == isAlnum x)).all isAlnum = true := by
          simp only [List.all_cons, hc, Bool.true_and, List.all_eq_true]
          intro x hx
          have := List.mem_takeWhile_imp hx
          simpa using this
        rw [if_pos hall]
        have hsplit : c :: cs = (c :: cs.takeWhile (fun x => true == isAlnum x))
            ++ cs.dropWhile (fun x => true == isAlnum x) := by
          simp [List.takeWhile_append_dropWhile]
        conv_lhs => rw [hsplit]
        apply replaceAll_alnum_run
        intro x hx
        exact List.all_eq_true.mp hall x hx
      | false =>
        have hall : ¬ ((c :: cs.takeWhile (fun x => false == isAlnum x)).all isAlnum = true) := by
          simp [hc]
        rw [if_neg hall, replaceAll_cons_other _ _ _ hc]
        have : (fun x => !isAlnum x) = (fun x => false == isAlnum x) := by
          funext x; cases isAlnum x <;> rfl
        rw [this]

theorem sanitize_eq_sanitizeSpec (s : GoString) : sanitize s = sanitizeSpec s := by
  unfold sanitize sanitizeSpec
  cases s with
  | nil => rfl
  | cons c rest =>
    by_cases h : c = '$'
    · subst h
      simp only [if_true]
      exact replaceAll_eq_runs _ _ (le_refl _)
    · simp only [if_neg h]
      rw [replaceAll_eq_runs _ _ (le_refl _)]
      split
      · rename_i heq; simp at heq; exact absurd heq.1 h
      · rfl

theorem replaceAll_identChars (k : Nat) (s : GoString) :
    ∀ c ∈ sanitizeRegex_ReplaceAllString ['_'] k s, isIdentChar c = true := by
  induction s generalizing k with
  | nil => simp [sanitizeRegex_ReplaceAllString]
  | cons a as ih =>
    cases k with
    | succ k => simpa [sanitizeRegex_ReplaceAllString] using ih k
    | zero =>
      cases ha : isAlnum a with
      | true =>
        rw [replaceAll_cons_alnum _ _ _ ha]
        intro c hc
        rcases List.mem_cons.mp hc with h | h
        · subst h; simp [isIdentChar, ha]
        · exact ih 0 c h
      | false =>
        simp only [sanitizeRegex_ReplaceAllString, sanitizeRegex_match, List.takeWhile, ha,
          Bool.not_false]
        intro c hc
        rcases List.mem_append.mp hc with h | h
        · simp at h; subst h; simp [isIdentChar]
        · exact ih _ c h

theorem sanitize_identChars (s : GoString) : ∀ c ∈ sanitize s, isIdentChar c = true := by
  unfold sanitize
  exact replaceAll_identChars 0 _

/-- C1: for every string, `sanitize` returns what the specification describes: one leading `$`
is removed (a second one is not), then every maximal run of characters outside `[A-Za-z0-9]`
becomes a single `_`; `$MFT` gives `MFT` and `Foo Bar/Baz` gives `Foo_Bar_Baz`. -/
theorem C1_sanitize_meets_spec :
    (∀ s : GoString, sanitize s = sanitizeSpec s) ∧
    sanitize "$MFT".toList = "MFT".toList ∧
    sanitize "Foo Bar/Baz".toList = "Foo_Bar_Baz".toList ∧
    sanitize "$$MFT".toList = "_MFT".toList :=
  ⟨sanitize_eq_sanitizeSpec, by decide, by decide, by decide⟩

/-! ## Legacy normalisation -/

/-- C4: `clearLagcyTargetFile` leaves `Rules` equal to the old `Rules` followed by the old
`Targets`, empties `Targets`, `Id` and `Version`, clears `RecreateDirectories`, and keeps
`Name`, `Description`, `Author` and `Preamble`; a document with `Targets` `[A, B]` and no
`Rules` ends with `Rules` `[A, B]` and no `Targets`. -/
theorem C4_clearLagcyTargetFile (tf : TargetFile) (A B : TargetRule) :
    (clearLagcyTargetFile tf).Rules = tf.Rules ++ tf.Targets ∧
    (clearLagcyTargetFile tf).Targets = [] ∧
    (clearLagcyTargetFile tf).Id = [] ∧
    (clearLagcyTargetFile tf).Version = [] ∧
    (clearLagcyTargetFile tf).RecreateDirectories = false ∧
    (clearLagcyTargetFile tf).Name = tf.Name ∧
    (clearLagcyTargetFile tf).Description = tf.Description ∧
    (clearLagcyTargetFile tf).Author = tf.Author ∧
    (clearLagcyTargetFile tf).Preamble = tf.Preamble ∧
    (clearLagcyTargetFile { tf with Targets := [A, B], Rules := [] }).Rules = [A, B] ∧
    (clearLagcyTargetFile { tf with Targets := [A, B], Rules := [] }).Targets = [] :=
  ⟨rfl, rfl, rfl, rfl, rfl, rfl, rfl, rfl, rfl, rfl, rfl⟩

/-! ## The render projection -/

theorem insertionSort_step_perm {α : Type} (less : α → α → Bool) (x : α) (l : List α) :
    (insertionSort_step less x l).Perm (x :: l) := by
  induction l with
  | nil => exact List.Perm.refl _
  | cons y ys ih =>
    unfold insertionSort_step
    by_cases h : less x y = true
    · rw [if_pos h]
      exact (List.Perm.cons y ih).trans (List.Perm.swap x y ys)
    · rw [if_neg h]

theorem sort_Slice_foldl_perm {α : Type} (less : α → α → Bool) (data acc : List α) :
    (data.foldl (fun sorted x => insertionSort_step less x sorted) acc).Perm (data ++ acc) := by
  induction data generalizing acc with
  | nil => exact List.Perm.refl _
  | cons x xs ih =>
    rw [List.foldl_cons]
    refine (ih _).trans ?_
    refine (List.Perm.append_left xs (insertionSort_step_perm less x acc)).trans ?_
    exact List.perm_middle

theorem sort_Slice_perm {α : Type} (less : α → α → Bool) (data : List α) :
    (sort_Slice less data).Perm data := by
  unfold sort_Slice
  refine (List.reverse_perm _).trans ?_
  simpa using sort_Slice_foldl_perm less data []

theorem insertionSort_step_sorted {α β : Type} [LinearOrder β] (key : α → β) (x : α)
    (l : List α) (h : l.Pairwise (fun a b => key b ≤ key a)) :
    (insertionSort_step (fun a b => decide (key a < key b)) x l).Pairwise
      (fun a b => key b ≤ key a) := by
  induction l with
  | nil => simp [insertionSort_step]
  | cons y ys ih =>
    unfold insertionSort_step
    rw [List.pairwise_cons] at h
    by_cases hxy : key x < key y
    · rw [if_pos (by simpa using hxy)]
      rw [List.pairwise_cons]
      refine ⟨?_, ih h.2⟩
      intro z hz
      rcases List.mem_cons.mp ((insertionSort_step_perm _ x ys).subset hz) with hzx | hzy
      · subst hzx; exact le_of_lt hxy
      · exact h.1 z hzy
    · rw [if_neg (by simpa using hxy)]
      have hyx : key y ≤ key x := not_lt.mp hxy
      rw [List.pairwise_cons]
      refine ⟨?_, List.pairwise_cons.mpr h⟩
      intro z hz
      rcases List.mem_cons.mp hz with hzy | hzys
      · subst hzy; exact hyx
      · exact le_trans (h.1 z hzys) hyx

theorem sort_Slice_foldl_sorted {α β : Type} [LinearOrder β] (key : α → β)
    (data acc : List α) (h : acc.Pairwise (fun a b => key b ≤ key a)) :
    (data.foldl (fun sorted x => insertionSort_step (fun a b => decide (key a < key b)) x sorted)
      acc).Pairwise (fun a b => key b ≤ key a) := by
  induction data generalizing acc with
  | nil => exact h
  | cons x xs ih =>
    rw [List.foldl_cons]
    exact ih _ (insertionSort_step_sorted key x acc h)

theorem sort_Slice_sorted {α β : Type} [LinearOrder β] (key : α → β) (data : List α) :
    (sort_Slice (fun a b => decide (key a < key b)) data).Pairwise
      (fun a b => key a ≤ key b) := by
  unfold sort_Slice
  rw [List.pairwise_reverse]
  exact sort_Slice_foldl_sorted key data [] List.Pairwise.nil

theorem flatten_rules_loop (tf : TargetFile) (rules : List TargetRule)
    (acc : List TargetCSV × List RuleCSV × List GoString) :
    (rules.foldl
        (fun (acc2 : List TargetCSV × List RuleCSV × List GoString) t =>
          (acc2.1, acc2.2.1 ++ [ruleRecord tf t],
            if t.VQL ≠ [] then GetDependentArtifacts acc2.2.2 t.VQL else acc2.2.2))
        acc).1 = acc.1 ∧
    (rules.foldl
        (fun (acc2 : List TargetCSV × List RuleCSV × List GoString) t =>
          (acc2.1, acc2.2.1 ++ [ruleRecord tf t],
            if t.VQL ≠ [] then GetDependentArtifacts acc2.2.2 t.VQL else acc2.2.2))
        acc).2.1 = acc.2.1 ++ rules.map (ruleRecord tf) := by
  induction rules generalizing acc with
  | nil => simp
  | cons t ts ih =>
    rw [List.foldl_cons]
    obtain ⟨h1, h2⟩ := ih (acc.1, acc.2.1 ++ [ruleRecord tf t],
      if t.VQL ≠ [] then GetDependentArtifacts acc.2.2 t.VQL else acc.2.2)
    refine ⟨h1, ?_⟩
    rw [h2]; simp

theorem flatten_targets_loop (vals : List TargetFile)
    (acc : List TargetCSV × List RuleCSV × List GoString) :
    (vals.foldl
      (fun (acc : List TargetCSV × List RuleCSV × List GoString) target_file =>
        target_file.Rules.foldl
          (fun (acc2 : List TargetCSV × List RuleCSV × List GoString) t =>
            (acc2.1, acc2.2.1 ++ [ruleRecord target_file t],
              if t.VQL ≠ [] then GetDependentArtifacts acc2.2.2 t.VQL else acc2.2.2))
          (acc.1 ++ [targetRecord target_file], acc.2.1, acc.2.2))
      acc).1 = acc.1 ++ vals.map targetRecord ∧
    (vals.foldl
      (fun (acc : List TargetCSV × List RuleCSV × List GoString) target_file =>
        target_file.Rules.foldl
          (fun (acc2 : List TargetCSV × List RuleCSV × List GoString) t =>
            (acc2.1, acc2.2.1 ++ [ruleRecord target_file t],
              if t.VQL ≠ [] then GetDependentArtifacts acc2.2.2 t.VQL else acc2.2.2))
          (acc.1 ++ [targetRecord target_file], acc.2.1, acc.2.2))
      acc).2.1 = acc.2.1 ++ vals.flatMap (fun tf => tf.Rules.map (ruleRecord tf)) := by
  induction vals generalizing acc with
  | nil => simp
  | cons tf tfs ih =>
    rw [List.foldl_cons]
    obtain ⟨h1, h2⟩ := ih (tf.Rules.foldl
          (fun (acc2 : List TargetCSV × List RuleCSV × List GoString) t =>
            (acc2.1, acc2.2.1 ++ [ruleRecord tf t],
              if t.VQL ≠ [] then GetDependentArtifacts acc2.2.2 t.VQL else acc2.2.2))
          (acc.1 ++ [targetRecord tf], acc.2.1, acc.2.2))
    obtain ⟨g1, g2⟩ :=
      flatten_rules_loop tf tf.Rules (acc.1 ++ [targetRecord tf], acc.2.1, acc.2.2)
    refine ⟨?_, ?_⟩
    · rw [h1, g1]; simp
    · rw [h2, g2]; simp

theorem GetArtifact_flatten_targets (targets : Dict) (deps : List GoString) :
    (GetArtifact_flatten targets deps).1 = flatTargets targets := by
  unfold GetArtifact_flatten flatTargets
  simpa using (flatten_targets_loop targets.Values ([], [], deps)).1

theorem GetArtifact_flatten_rules (targets : Dict) (deps : List GoString) :
    (GetArtifact_flatten targets deps).2.1 = flatRules targets := by
  unfold GetArtifact_flatten flatRules
  simpa using (flatten_targets_loop targets.Values ([], [], deps)).2

theorem GetArtifact_Rules (now commit : GoString) (self : Compiler) :
    (GetArtifact now commit self).2.Rules
      = sort_Slice (fun r1 r2 => decide (ruleKey r1 < ruleKey r2)) (flatRules self.targets) := by
  simp [GetArtifact, GetArtifact_flatten_rules]

theorem GetArtifact_TargetFiles (now commit : GoString) (self : Compiler) :
    (GetArtifact now commit self).2.TargetFiles
      = sort_Slice (fun t1 t2 => decide (targetKey t1 < targetKey t2))
          (flatTargets self.targets) := by
  simp [GetArtifact, GetArtifact_flatten_targets]

theorem strings_ReplaceAll_underscore (name : GoString) :
    strings_ReplaceAll name '_' ' ' = name.map (fun c => if c = '_' then ' ' else c) := rfl

/-- C3: for every store, the `Rules` of the projection are a permutation of the flattened rule
records (one per rule of every target: sanitized target name, sanitized rule name, comment,
glob, sanitized ref, query) and are in non-decreasing lexicographic order of the key
`Target ++ Name`; the `TargetFiles` are a permutation of the target records (one per target:
sanitized name, description, preamble) and are in non-decreasing lexicographic order of `Name`
with every `_` replaced by a space.  For the targets `AB`, `A_B`, `A0`, each with a rule `r`,
the target records come out as `A_B`, `A0`, `AB` (the space sorts first) and the rule records
as those of `A0`, `AB`, `A_B` (the underscore sorts last). -/
theorem C3_projection_sorted (now commit : GoString) (self : Compiler) :
    (GetArtifact now commit self).2.Rules.Perm
      (self.targets.Values.flatMap (fun tf => tf.Rules.map (fun t =>
        ({ Target := sanitize tf.Name, Name := sanitize t.Name, Description := t.Comment,
           Glob := t.Glob, Ref := sanitize t.Ref, VQL := t.VQL } : RuleCSV)))) ∧
    (GetArtifact now commit self).2.Rules.Pairwise
      (fun r1 r2 => r1.Target ++ r1.Name ≤ r2.Target ++ r2.Name) ∧
    (GetArtifact now commit self).2.TargetFiles.Perm
      (self.targets.Values.map (fun tf =>
        ({ Name := sanitize tf.Name, Description := tf.Description,
           Preamble := tf.Preamble } : TargetCSV))) ∧
    (GetArtifact now commit self).2.TargetFiles.Pairwise
      (fun t1 t2 => t1.Name.map (fun c => if c = '_' then ' ' else c)
        ≤ t2.Name.map (fun c => if c = '_' then ' ' else c)) ∧
    (GetArtifact [] [] underscoreExample).2.TargetFiles.map (fun t => t.Name)
      = ["A_B".toList, "A0".toList, "AB".toList] ∧
    (GetArtifact [] [] underscoreExample).2.Rules.map (fun r => (r.Target, r.Name))
      = [("A0".toList, "r".toList), ("AB".toList, "r".toList), ("A_B".toList, "r".toList)] := by
  refine ⟨?_, ?_, ?_, ?_, by decide, by decide⟩
  · rw [GetArtifact_Rules]; exact sort_Slice_perm _ _
  · rw [GetArtifact_Rules]; exact sort_Slice_sorted ruleKey _
  · rw [GetArtifact_TargetFiles]; exact sort_Slice_perm _ _
  · rw [GetArtifact_TargetFiles]
    have h := sort_Slice_sorted targetKey (flatTargets self.targets)
    simpa only [targetKey, strings_ReplaceAll_underscore] using h

theorem sort_Slice_unique {α β : Type} [LinearOrder β] (key : α → β) (l1 l2 : List α)
    (hperm : l1.Perm l2)
    (hkey : ∀ a ∈ l1, ∀ b ∈ l1, key a = key b → a = b) :
    sort_Slice (fun a b => decide (key a < key b)) l1
      = sort_Slice (fun a b => decide (key a < key b)) l2 := by
  refine @List.Perm.eq_of_sorted _ (fun a b => key a ≤ key b) _ _ ?_ ?_ ?_ ?_
  · intro a b ha hb hab hba
    have ha1 : a ∈ l1 := (sort_Slice_perm _ l1).subset ha
    have hb1 : b ∈ l1 := hperm.symm.subset ((sort_Slice_perm _ l2).subset hb)
    exact hkey a ha1 b hb1 (le_antisymm hab hba)
  · exact sort_Slice_sorted key l1
  · exact sort_Slice_sorted key l2
  · exact ((sort_Slice_perm _ l1).trans hperm).trans (sort_Slice_perm _ l2).symm

/-- C2 (counterexample): two stores hold the same two documents in opposite orders; the rule
records of target `A`, rule `BC` and of target `AB`, rule `C` share the sort key `ABC`, and the
`Rules` list of the projection comes out in a different order in the two runs. -/
theorem C2_order_depends_on_enumeration :
    orderExample_run1.targets.Perm orderExample_run2.targets ∧
    (GetArtifact [] [] orderExample_run1).2.Rules
      ≠ (GetArtifact [] [] orderExample_run2).2.Rules :=
  ⟨List.Perm.swap _ _ _, by decide⟩

/-- C2 (amended): for two stores holding the same documents in different orders, the `Rules`
and the `TargetFiles` of the projection are identical in both runs whenever two rule records
with the same sort key are equal and two target records with the same sort key are equal (in
particular when the sort keys are pairwise different). -/
theorem C2_order_independent_of_enumeration (now commit : GoString) (run1 run2 : Compiler)
    (hsame : run1.targets.Perm run2.targets)
    (hrules : ∀ a ∈ flatRules run1.targets, ∀ b ∈ flatRules run1.targets,
      ruleKey a = ruleKey b → a = b)
    (htargets : ∀ a ∈ flatTargets run1.targets, ∀ b ∈ flatTargets run1.targets,
      targetKey a = targetKey b → a = b) :
    (GetArtifact now commit run1).2.Rules = (GetArtifact now commit run2).2.Rules ∧
    (GetArtifact now commit run1).2.TargetFiles
      = (GetArtifact now commit run2).2.TargetFiles := by
  have hvals : run1.targets.Values.Perm run2.targets.Values := hsame.map _
  rw [GetArtifact_Rules, GetArtifact_Rules, GetArtifact_TargetFiles, GetArtifact_TargetFiles]
  refine ⟨sort_Slice_unique ruleKey _ _ ?_ hrules, sort_Slice_unique targetKey _ _ ?_ htargets⟩
  · exact hvals.flatMap_right _
  · exact hvals.map _

/-- Witness for C2 (amended): the stores `orderExample_run3` and `orderExample_run4` hold two
documents whose records have different sort keys, in opposite orders. -/
theorem C2_order_independent_witness :
    orderExample_run3.targets.Perm orderExample_run4.targets ∧
    (GetArtifact [] [] orderExample_run3).2.Rules
        = (GetArtifact [] [] orderExample_run4).2.Rules ∧
    (GetArtifact [] [] orderExample_run3).2.TargetFiles
        = (GetArtifact [] [] orderExample_run4).2.TargetFiles :=
  ⟨List.Perm.swap _ _ _,
    C2_order_independent_of_enumeration [] [] orderExample_run3 orderExample_run4
      (List.Perm.swap _ _ _) (by decide) (by decide)⟩

/-- C10: every name the projection exposes (the `Name` of every target record and the
`Target`, `Name` and `Ref` of every rule record) consists of characters of `[A-Za-z0-9_]`
only, and `GetArtifact` leaves the target store as it was. -/
theorem C10_projection_names_sanitized (now commit : GoString) (self : Compiler) :
    (∀ t ∈ (GetArtifact now commit self).2.TargetFiles,
      ∀ c ∈ t.Name, isIdentChar c = true) ∧
    (∀ r ∈ (GetArtifact now commit self).2.Rules,
      (∀ c ∈ r.Target, isIdentChar c = true) ∧ (∀ c ∈ r.Name, isIdentChar c = true) ∧
      (∀ c ∈ r.Ref, isIdentChar c = true)) ∧
    (GetArtifact now commit self).1.targets = self.targets := by
  refine ⟨?_, ?_, rfl⟩
  · intro t ht
    rw [GetArtifact_TargetFiles] at ht
    have hmem := (sort_Slice_perm _ _).subset ht
    obtain ⟨tf, _, rfl⟩ := List.mem_map.mp hmem
    exact sanitize_identChars _
  · intro r hr
    rw [GetArtifact_Rules] at hr
    have hmem := (sort_Slice_perm _ _).subset hr
    obtain ⟨tf, _, hr2⟩ := List.mem_flatMap.mp hmem
    obtain ⟨t, _, rfl⟩ := List.mem_map.mp hr2
    exact ⟨sanitize_identChars _, sanitize_identChars _, sanitize_identChars _⟩

/-! ## Indentation -/

theorem strings_Split_ne_nil (s : GoString) (sep : Char) : strings_Split s sep ≠ [] := by
  cases s with
  | nil => simp [strings_Split]
  | cons c cs =>
    unfold strings_Split
    by_cases h : c = sep
    · simp [h]
    · rw [if_neg h]
      cases strings_Split cs sep <;> simp

theorem strings_Split_sep_free (s : GoString) (sep : Char) :
    ∀ seg ∈ strings_Split s sep, sep ∉ seg := by
  induction s with
  | nil => simp [strings_Split]
  | cons c cs ih =>
    unfold strings_Split
    by_cases h : c = sep
    · rw [if_pos h]
      intro seg hseg
      rcases List.mem_cons.mp hseg with h1 | h1
      · subst h1; simp
      · exact ih seg h1
    · rw [if_neg h]
      cases hsp : strings_Split cs sep with
      | nil => exact absurd hsp (strings_Split_ne_nil cs sep)
      | cons seg0 segs =>
        rw [hsp] at ih
        intro seg hseg
        rcases List.mem_cons.mp hseg with h1 | h1
        · subst h1
          intro hmem
          rcases List.mem_cons.mp hmem with h2 | h2
          · exact h h2.symm
          · exact ih seg0 (List.mem_cons_self _ _) h2
        · exact ih seg (List.mem_cons_of_mem _ h1)

theorem indent_loop_eq_map (indent_str : GoString) (lines : List GoString)
    (acc : List GoString) :
    lines.foldl (fun (acc : List GoString) l => acc ++ [indent_str ++ l]) acc
      = acc ++ lines.map (fun l => indent_str ++ l) := by
  induction lines generalizing acc with
  | nil => simp
  | cons l ls ih => rw [List.foldl_cons, ih]; simp

theorem replicate_singleton_flatten (n : Nat) (c : Char) :
    (List.replicate n [c]).flatten = List.replicate n c := by
  induction n with
  | zero => rfl
  | succ n ih => simp [List.replicate_succ, ih]

theorem indent_eq (text : GoString) (n : Int) (hn : 0 ≤ n) :
    indent text n = some (strings_Join
      ((strings_Split text '\n').map (fun l => List.replicate n.toNat ' ' ++ l)) ['\n']) := by
  unfold indent strings_Repeat
  rw [if_neg (not_lt.mpr hn)]
  simp only [indent_loop_eq_map, List.nil_append, replicate_singleton_flatten]

theorem strings_Split_eq_splitOn (s : GoString) (sep : Char) :
    strings_Split s sep = s.splitOn sep := by
  induction s with
  | nil => rfl
  | cons c cs ih =>
    unfold strings_Split
    rw [List.splitOn, List.splitOnP_cons]
    by_cases h : c = sep
    · rw [if_pos h, if_pos (by simpa using h), ih]; rfl
    · rw [if_neg h, if_neg (by simpa using h), ih]
      cases hsp : List.splitOn sep cs with
      | nil => exact absurd hsp (List.splitOnP_ne_nil _ cs)
      | cons seg segs =>
        have hsp2 : List.splitOnP (fun x => x == sep) cs = seg :: segs := hsp
        rw [hsp2]
        rfl

theorem strings_Join_eq_intercalate (segs : List GoString) (sep : GoString) :
    strings_Join segs sep = sep.intercalate segs := by
  induction segs with
  | nil => rfl
  | cons a rest ih =>
    cases rest with
    | nil => simp [strings_Join, List.intercalate]
    | cons b rest2 =>
      rw [strings_Join, ih]
      simp [List.intercalate, List.intersperse]

theorem indent_eq_indentSpec (text : GoString) (n : Int) (hn : 0 ≤ n) :
    indent text n = some (indentSpec text n.toNat) := by
  rw [indent_eq text n hn, strings_Join_eq_intercalate, strings_Split_eq_splitOn]
  rfl

theorem splitOn_indentSpec (text : GoString) (n : Nat) :
    (indentSpec text n).splitOn '\n'
      = (text.splitOn '\n').map (fun line => List.replicate n ' ' ++ line) := by
  unfold indentSpec
  apply List.splitOn_intercalate
  · intro l hl
    obtain ⟨line, hline, rfl⟩ := List.mem_map.mp hl
    intro hmem
    rcases List.mem_append.mp hmem with h | h
    · have := List.eq_of_mem_replicate h
      exact absurd this (by decide)
    · rw [← strings_Split_eq_splitOn] at hline
      exact strings_Split_sep_free text '\n' line hline h
  · intro h
    exact List.splitOnP_ne_nil _ text (List.map_eq_nil_iff.mp h)

/-- C9: for every text and every `n ≥ 0`, `indent text n` returns the text put together from
its newline-separated lines with `n` spaces in front of each; that string has as many lines as
the text and its `i`-th line is `n` spaces followed by the `i`-th line of the text, empty lines
and the empty piece behind a trailing newline included; `Indent`, called with a string and an
int, returns that same string.  The lines are those of the library's `List.splitOn`. -/
theorem C9_indent_prefixes_every_line (text : GoString) (n : Int) (hn : 0 ≤ n) :
    indent text n
      = some (['\n'].intercalate
          ((text.splitOn '\n').map (fun line => List.replicate n.toNat ' ' ++ line))) ∧
    (∃ result, indent text n = some result ∧
      (result.splitOn '\n').length = (text.splitOn '\n').length ∧
      (∀ i : Nat, (result.splitOn '\n')[i]?
          = ((text.splitOn '\n')[i]?).map (fun line => List.replicate n.toNat ' ' ++ line)) ∧
      indentTemplate [GoValue.str text, GoValue.int n] = some (GoValue.str result)) := by
  refine ⟨indent_eq_indentSpec text n hn, indentSpec text n.toNat,
    indent_eq_indentSpec text n hn, ?_, ?_, ?_⟩
  · rw [splitOn_indentSpec, List.length_map]
  · intro i
    rw [splitOn_indentSpec, List.getElem?_map]
  · simp [indentTemplate, indent_eq_indentSpec text n hn]

/-- Witness for C9: the text `a`, empty line, `b`, trailing newline, indented by two, is
two spaces and `a`, two spaces, two spaces and `b`, two spaces, on four lines; `Indent` returns
the same string. -/
theorem C9_indent_witness :
    indent "a\n\nb\n".toList 2 = some "  a\n  \n  b\n  ".toList ∧
    indentTemplate [GoValue.str "a\n\nb\n".toList, GoValue.int 2]
      = some (GoValue.str "  a\n  \n  b\n  ".toList) ∧
    indent "one line".toList 0 = some "one line".toList ∧
    indent [] 3 = some "   ".toList :=
  ⟨(C9_indent_prefixes_every_line "a\n\nb\n".toList 2 (by decide)).1.trans (by decide),
    by decide,
    (C9_indent_prefixes_every_line "one line".toList 0 (by decide)).1.trans (by decide),
    (C9_indent_prefixes_every_line [] 3 (by decide)).1.trans (by decide)⟩

/-! ## Loading a rule file -/

theorem index0_strings_Split (s : GoString) (sep : Char) :
    index0 (strings_Split s sep) = s.takeWhile (fun c => c ≠ sep) := by
  induction s with
  | nil => rfl
  | cons c cs ih =>
    unfold strings_Split
    by_cases h : c = sep
    · simp [h, index0]
    · rw [if_neg h]
      cases hsp : strings_Split cs sep with
      | nil => exact absurd hsp (strings_Split_ne_nil cs sep)
      | cons seg0 segs =>
        rw [hsp] at ih
        simp only [index0] at ih
        simp [index0, List.takeWhile, h, ih]

theorem Dict_find_filter_ne (d : Dict) (key : GoString) :
    List.find? (fun item => decide (item.1 = key))
      (List.filter (fun item => decide (item.1 ≠ key)) d) = none := by
  rw [List.find?_eq_none]
  intro x hx
  have := (List.mem_filter.mp hx).2
  simpa using this

theorem Dict_Get_Set (d : Dict) (key : GoString) (value : TargetFile) :
    (d.Set key value).Get key = some value := by
  unfold Dict.Set Dict.Get
  rw [List.find?_append, Dict_find_filter_ne]
  simp [List.find?]

theorem Dict_find_filter_other (d : Dict) (key other : GoString) (h : other ≠ key) :
    List.find? (fun item => decide (item.1 = other))
      (List.filter (fun item => decide (item.1 ≠ key)) d)
      = List.find? (fun item => decide (item.1 = other)) d := by
  induction d with
  | nil => rfl
  | cons x xs ih =>
    by_cases hx : x.1 = key
    · have hxo : ¬ x.1 = other := fun e => h (e.symm.trans hx)
      rw [List.filter_cons_of_neg (by simpa using hx),
        List.find?_cons_of_neg _ (by simpa using hxo)]
      exact ih
    · rw [List.filter_cons_of_pos (by simpa using hx)]
      by_cases hxo : x.1 = other
      · rw [List.find?_cons_of_pos _ (by simpa using hxo),
          List.find?_cons_of_pos _ (by simpa using hxo)]
      · rw [List.find?_cons_of_neg _ (by simpa using hxo),
          List.find?_cons_of_neg _ (by simpa using hxo)]
        exact ih

theorem Dict_Get_Set_other (d : Dict) (key other : GoString) (value : TargetFile)
    (h : other ≠ key) : (d.Set key value).Get other = d.Get other := by
  unfold Dict.Set Dict.Get
  rw [List.find?_append, Dict_find_filter_other d key other h]
  have h1 : List.find? (fun item => decide (item.1 = other)) [(key, value)] = none := by
    simp [List.find?, Ne.symm h]
  rw [h1]; simp

/-- C7: for a document `d` parsed from the file at `path`, `LoadRule` names it `d.Name` when
that is not empty and otherwise the base name of `path` cut at its first `.`; it stores the
document under that name exactly when `Rules` or `Targets` holds a rule, and otherwise leaves
the store as it was; in both cases no error is returned. -/
theorem C7_LoadRule_names_and_stores (UnmarshalStrict : Bytes → Except GoError TargetFile)
    (self : Compiler) (data : Bytes) (path : GoString) (d : TargetFile)
    (hparse : UnmarshalStrict data = Except.ok d) :
    LoadRule UnmarshalStrict self data path
      = (if d.Rules ≠ [] ∨ d.Targets ≠ [] then
          { self with targets :=
              self.targets.Set (documentName d path) { d with Name := documentName d path } }
        else self, none) ∧
    ((d.Rules ≠ [] ∨ d.Targets ≠ []) →
      (LoadRule UnmarshalStrict self data path).1.targets.Get (documentName d path)
        = some { d with Name := documentName d path }) ∧
    ((d.Rules = [] ∧ d.Targets = []) →
      (LoadRule UnmarshalStrict self data path).1.targets = self.targets) := by
  have hmain : LoadRule UnmarshalStrict self data path
      = (if d.Rules ≠ [] ∨ d.Targets ≠ [] then
          { self with targets :=
              self.targets.Set (documentName d path) { d with Name := documentName d path } }
        else self, none) := by
    unfold LoadRule documentName
    rw [hparse]
    by_cases hname : d.Name = []
    · simp only [hname, if_true, index0_strings_Split]
      by_cases hr : d.Rules ≠ [] ∨ d.Targets ≠ []
      · have hlen : d.Rules.length > 0 ∨ d.Targets.length > 0 := by
          rcases hr with h | h
          · exact Or.inl (List.length_pos.mpr h)
          · exact Or.inr (List.length_pos.mpr h)
        rw [if_pos hlen, if_pos hr]
      · have hlen : ¬ (d.Rules.length > 0 ∨ d.Targets.length > 0) := by
          intro h
          rcases h with h | h
          · exact hr (Or.inl (List.length_pos.mp h))
          · exact hr (Or.inr (List.length_pos.mp h))
        rw [if_neg hlen, if_neg hr]
    · simp only [hname, if_false]
      by_cases hr : d.Rules ≠ [] ∨ d.Targets ≠ []
      · have hlen : d.Rules.length > 0 ∨ d.Targets.length > 0 := by
          rcases hr with h | h
          · exact Or.inl (List.length_pos.mpr h)
          · exact Or.inr (List.length_pos.mpr h)
        rw [if_pos hlen, if_pos hr]
      · have hlen : ¬ (d.Rules.length > 0 ∨ d.Targets.length > 0) := by
          intro h
          rcases h with h | h
          · exact hr (Or.inl (List.length_pos.mp h))
          · exact hr (Or.inr (List.length_pos.mp h))
        rw [if_neg hlen, if_neg hr]
  refine ⟨hmain, ?_, ?_⟩
  · intro hr
    rw [hmain, if_pos hr]
    exact Dict_Get_Set _ _ _
  · intro hr
    have : ¬ (d.Rules ≠ [] ∨ d.Targets ≠ []) := by
      intro h
      rcases h with h | h
      · exact h hr.1
      · exact h hr.2
    rw [hmain, if_neg this]

/-- Witness for C7: a document without a name and with one legacy rule, parsed from
`/targets/Windows/EventLogs.v2.tkape`, is stored under `EventLogs`. -/
theorem C7_LoadRule_witness :
    documentName loadExample_doc "/targets/Windows/EventLogs.v2.tkape".toList
        = "EventLogs".toList ∧
    (LoadRule (fun _ => Except.ok loadExample_doc) {} []
        "/targets/Windows/EventLogs.v2.tkape".toList).1.targets.Get "EventLogs".toList
      = some { loadExample_doc with Name := "EventLogs".toList } :=
  ⟨by decide,
    (C7_LoadRule_names_and_stores (fun _ => Except.ok loadExample_doc) {} []
      "/targets/Windows/EventLogs.v2.tkape".toList loadExample_doc rfl).2.1 (by decide)⟩

/-! ## Validation -/

theorem stops_compose_none {X E : Type} (ok : X → Option E) (all1 calls1 all2 calls2 : List X)
    (err : Option E) (h1 : StopsAtFirstRejection ok all1 calls1 none)
    (h2 : StopsAtFirstRejection ok all2 calls2 err) :
    StopsAtFirstRejection ok (all1 ++ all2) (calls1 ++ calls2) err := by
  obtain ⟨hc1, hok1⟩ := h1.1 rfl
  subst hc1
  refine ⟨?_, ?_⟩
  · intro he
    obtain ⟨hc2, hok2⟩ := h2.1 he
    subst hc2
    refine ⟨rfl, ?_⟩
    intro x hx
    rcases List.mem_append.mp hx with h | h
    · exact hok1 x h
    · exact hok2 x h
  · intro e he
    obtain ⟨pre, c, post, hall, hcalls, hpre, hc⟩ := h2.2 e he
    refine ⟨calls1 ++ pre, c, post, ?_, ?_, ?_, hc⟩
    · rw [hall, List.append_assoc]
    · rw [hcalls, List.append_assoc]
    · intro x hx
      rcases List.mem_append.mp hx with h | h
      · exact hok1 x h
      · exact hpre x h

theorem stops_compose_some {X E : Type} (ok : X → Option E) (all1 calls1 all2 : List X)
    (e : E) (h1 : StopsAtFirstRejection ok all1 calls1 (some e)) :
    StopsAtFirstRejection ok (all1 ++ all2) calls1 (some e) := by
  refine ⟨fun h => Option.noConfusion h, ?_⟩
  intro e2 he2
  obtain ⟨pre, c, post, hall, hcalls, hpre, hc⟩ := h1.2 e2 he2
  exact ⟨pre, c, post ++ all2, by rw [hall]; simp, hcalls, hpre, hc⟩

theorem validate_rules_stops
    (ValidateRule : Compiler → TargetRule → TargetFile → Option GoError)
    (self : Compiler) (tf : TargetFile) (rules : List TargetRule) :
    StopsAtFirstRejection (runCheck ValidateRule) (rules.map (fun t => (self, t, tf)))
      (validate_rules ValidateRule self tf rules).1
      (validate_rules ValidateRule self tf rules).2 := by
  induction rules with
  | nil =>
    refine ⟨fun _ => ⟨rfl, by simp⟩, ?_⟩
    intro e he
    simp [validate_rules] at he
  | cons t rest ih =>
    unfold validate_rules
    cases hv : ValidateRule self t tf with
    | some err =>
      refine ⟨fun h => Option.noConfusion h, ?_⟩
      intro e he
      simp only [Option.some.injEq] at he
      subst he
      exact ⟨[], (self, t, tf), rest.map (fun t => (self, t, tf)), by simp, by simp, by simp,
        hv⟩
    | none =>
      have h1 : StopsAtFirstRejection (runCheck ValidateRule) [(self, t, tf)] [(self, t, tf)]
          none := by
        refine ⟨fun _ => ⟨rfl, ?_⟩, fun e he => Option.noConfusion he⟩
        intro x hx
        rw [List.mem_singleton.mp hx]
        exact hv
      exact stops_compose_none _ _ _ _ _ _ h1 ih

theorem validate_targets_cons
    (ValidateRule : Compiler → TargetRule → TargetFile → Option GoError)
    (self : Compiler) (done rest : Dict) (key : GoString) (t_file : TargetFile) :
    validate_targets ValidateRule self done ((key, t_file) :: rest)
      = match validate_rules ValidateRule
          { self with targets := (done ++ (key, clearLagcyTargetFile t_file) :: rest) }
          (clearLagcyTargetFile t_file) (clearLagcyTargetFile t_file).Rules with
        | (calls, some err) =>
          ({ self with targets := (done ++ (key, clearLagcyTargetFile t_file) :: rest) },
            calls, some err)
        | (calls, none) =>
          ((validate_targets ValidateRule self
              (done ++ [(key, clearLagcyTargetFile t_file)]) rest).1,
            calls ++ (validate_targets ValidateRule self
              (done ++ [(key, clearLagcyTargetFile t_file)]) rest).2.1,
            (validate_targets ValidateRule self
              (done ++ [(key, clearLagcyTargetFile t_file)]) rest).2.2) := by
  rw [validate_targets]

theorem validate_targets_stops
    (ValidateRule : Compiler → TargetRule → TargetFile → Option GoError)
    (self : Compiler) (rest doneRaw : Dict) :
    StopsAtFirstRejection (runCheck ValidateRule)
      ((List.range' doneRaw.length rest.length).flatMap (fun i =>
        match (doneRaw ++ rest)[i]? with
        | some item =>
          (item.2.Rules ++ item.2.Targets).map
            (fun t => ({ self with targets :=
                ((doneRaw ++ rest).take (i + 1)).map normalizeItem
                  ++ (doneRaw ++ rest).drop (i + 1) }, t, clearLagcyTargetFile item.2))
        | none => []))
      (validate_targets ValidateRule self (doneRaw.map normalizeItem) rest).2.1
      (validate_targets ValidateRule self (doneRaw.map normalizeItem) rest).2.2 ∧
    ((validate_targets ValidateRule self (doneRaw.map normalizeItem) rest).2.2 = none →
      (validate_targets ValidateRule self (doneRaw.map normalizeItem) rest).1
        = { self with targets := (doneRaw ++ rest).map normalizeItem }) := by
  induction rest generalizing doneRaw with
  | nil =>
    refine ⟨⟨fun _ => ⟨by simp [validate_targets], by simp⟩, fun e he => ?_⟩,
      fun _ => ?_⟩
    · simp [validate_targets] at he
    · simp [validate_targets]
  | cons item rest2 ih =>
    obtain ⟨key, t_file⟩ := item
    have hidx : (doneRaw ++ (key, t_file) :: rest2)[doneRaw.length]? = some (key, t_file) := by
      rw [List.getElem?_append_right (le_refl _)]; simp
    have hassoc : doneRaw ++ (key, t_file) :: rest2 = (doneRaw ++ [(key, t_file)]) ++ rest2 := by
      simp
    have htake : (doneRaw ++ (key, t_file) :: rest2).take (doneRaw.length + 1)
        = doneRaw ++ [(key, t_file)] := by
      rw [hassoc]; exact List.take_left' (by simp)
    have hdrop : (doneRaw ++ (key, t_file) :: rest2).drop (doneRaw.length + 1) = rest2 := by
      rw [hassoc]; exact List.drop_left' (by simp)
    have hcur : ({ self with targets :=
          ((doneRaw ++ (key, t_file) :: rest2).take (doneRaw.length + 1)).map normalizeItem
            ++ (doneRaw ++ (key, t_file) :: rest2).drop (doneRaw.length + 1) } : Compiler)
        = { self with targets :=
          (List.map normalizeItem doneRaw ++ (key, clearLagcyTargetFile t_file) :: rest2) } := by
      rw [htake, hdrop]; simp [normalizeItem]
    have hih := ih (doneRaw ++ [(key, t_file)])
    have hdone : (doneRaw ++ [(key, t_file)]).map normalizeItem
        = doneRaw.map normalizeItem ++ [(key, clearLagcyTargetFile t_file)] := by
      simp [normalizeItem]
    rw [hdone, ← hassoc] at hih
    have hlen : (doneRaw ++ [(key, t_file)]).length = doneRaw.length + 1 := by simp
    rw [hlen] at hih
    have hrules := validate_rules_stops ValidateRule
      { self with targets :=
          (List.map normalizeItem doneRaw ++ (key, clearLagcyTargetFile t_file) :: rest2) }
      (clearLagcyTargetFile t_file) (clearLagcyTargetFile t_file).Rules
    rw [List.length_cons, List.range'_succ, List.flatMap_cons, hidx]
    simp only [hcur]
    rw [validate_targets_cons]
    have hR : t_file.Rules ++ t_file.Targets = (clearLagcyTargetFile t_file).Rules := rfl
    rw [hR]
    cases hv : (validate_rules ValidateRule
      { self with targets :=
          (List.map normalizeItem doneRaw ++ (key, clearLagcyTargetFile t_file) :: rest2) }
      (clearLagcyTargetFile t_file) (clearLagcyTargetFile t_file).Rules) with
    | mk calls err =>
      rw [hv] at hrules
      cases err with
      | some e =>
        simp only
        exact ⟨stops_compose_some _ _ _ _ _ hrules, fun h => Option.noConfusion h⟩
      | none =>
        simp only
        exact ⟨stops_compose_none _ _ _ _ _ _ hrules hih.1, hih.2⟩

theorem validate_stops
    (ValidateRule : Compiler → TargetRule → TargetFile → Option GoError) (self : Compiler) :
    StopsAtFirstRejection (runCheck ValidateRule) (validate_allChecks self)
      (validate ValidateRule self).2.1 (validate ValidateRule self).2.2 ∧
    ((validate ValidateRule self).2.2 = none →
      (validate ValidateRule self).1.targets = self.targets.map normalizeItem) := by
  unfold validate validate_allChecks validate_stateAt
  by_cases hsep : self.config_obj.PathSep = []
  · have h := validate_targets_stops ValidateRule
      { self with config_obj := { self.config_obj with PathSep := ['/'] } } self.targets []
    simp only [List.length_nil, List.nil_append, List.map_nil, ← List.range_eq_range'] at h
    simp only [if_pos hsep]
    refine ⟨h.1, fun hnone => ?_⟩
    rw [h.2 hnone]
  · have h := validate_targets_stops ValidateRule self self.targets []
    simp only [List.length_nil, List.nil_append, List.map_nil, ← List.range_eq_range'] at h
    simp only [if_neg hsep]
    refine ⟨h.1, fun hnone => ?_⟩
    rw [h.2 hnone]

/-- C8: `validate` returns an error exactly when the per-rule check rejects one of the checks
it can make (every target's `Rules` followed by its legacy `Targets`, in store order and then
rule order); the error is that of the first rejected check, and the calls made are the checks
up to and including that one, so no later rule is checked; without an error every check was
made. -/
theorem C8_validate_stops_at_first_error
    (ValidateRule : Compiler → TargetRule → TargetFile → Option GoError) (self : Compiler) :
    ((validate ValidateRule self).2.2 ≠ none ↔
      ∃ c ∈ validate_allChecks self, ValidateRule c.1 c.2.1 c.2.2 ≠ none) ∧
    (∀ e, (validate ValidateRule self).2.2 = some e →
      ∃ pre c post, validate_allChecks self = pre ++ c :: post ∧
        (∀ x ∈ pre, ValidateRule x.1 x.2.1 x.2.2 = none) ∧
        ValidateRule c.1 c.2.1 c.2.2 = some e ∧
        (validate ValidateRule self).2.1 = pre ++ [c]) ∧
    ((validate ValidateRule self).2.2 = none →
      (validate ValidateRule self).2.1 = validate_allChecks self) := by
  obtain ⟨hnone, hsome⟩ := (validate_stops ValidateRule self).1
  refine ⟨⟨?_, ?_⟩, ?_, fun h => (hnone h).1⟩
  · intro hne
    cases herr : (validate ValidateRule self).2.2 with
    | none => exact absurd herr hne
    | some e =>
      obtain ⟨pre, c, post, hall, _, _, hc⟩ := hsome e herr
      refine ⟨c, by rw [hall]; simp, ?_⟩
      have : ValidateRule c.1 c.2.1 c.2.2 = some e := hc
      rw [this]; simp
  · rintro ⟨c, hmem, hc⟩ herr
    exact hc ((hnone herr).2 c hmem)
  · intro e herr
    obtain ⟨pre, c, post, hall, hcalls, hpre, hc⟩ := hsome e herr
    exact ⟨pre, c, post, hall, hpre, hc, hcalls⟩

/-! ## The aggregate target -/

theorem MakeAllTarget_loop (items : Dict) (acc : TargetFile) :
    items.foldl
        (fun (acc : TargetFile) item =>
          { acc with Targets := acc.Targets ++ [{ Name := item.2.Name, Ref := item.2.Name }] })
        acc
      = { acc with
          Targets := (acc.Targets ++ items.Values.map
            (fun tf => ({ Name := tf.Name, Ref := tf.Name } : TargetRule))) } := by
  induction items generalizing acc with
  | nil => simp [Dict.Values]
  | cons item rest ih =>
    rw [List.foldl_cons, ih]
    simp [Dict.Values]

theorem Dict_Get_map_normalize (d : Dict) (key : GoString) :
    Dict.Get (d.map normalizeItem) key = (Dict.Get d key).map clearLagcyTargetFile := by
  induction d with
  | nil => rfl
  | cons item rest ih =>
    unfold Dict.Get at ih ⊢
    by_cases h : item.1 = key
    · simp [List.find?, normalizeItem, h]
    · simpa [List.find?, normalizeItem, h] using ih

/-- With `MakeAllTarget` set, the store afterwards maps `_All` to a target that, once
normalised, has one rule per document that was in the store, in store order, the `i`-th rule
carrying the name of the `i`-th document as `Ref` and no `Glob`, `VQL`, `Path`, `FileMask` or
`Recursive`; whenever `validate` returns no error the store holds that normalised target under
`_All`.  No document is left out, a document named `_All` included. -/
theorem MakeAllTarget_one_rule_per_stored_target (self : Compiler)
    (hflag : self.config_obj.MakeAllTarget = true) :
    ∃ all, (loadConfig_MakeAllTarget self).targets.Get "_All".toList = some all ∧
      (clearLagcyTargetFile all).Rules
        = self.targets.Values.map (fun tf => ({ Name := tf.Name, Ref := tf.Name } : TargetRule)) ∧
      (clearLagcyTargetFile all).Rules.map (fun t => t.Ref)
        = self.targets.Values.map (fun tf => tf.Name) ∧
      (∀ t ∈ (clearLagcyTargetFile all).Rules,
        t.Glob = [] ∧ t.VQL = [] ∧ t.Path = [] ∧ t.FileMask = [] ∧ t.Recursive = false) ∧
      (∀ ValidateRule : Compiler → TargetRule → TargetFile → Option GoError,
        (validate ValidateRule (loadConfig_MakeAllTarget self)).2.2 = none →
        (validate ValidateRule (loadConfig_MakeAllTarget self)).1.targets.Get "_All".toList
          = some (clearLagcyTargetFile all)) ∧
      (∀ (kx ky : GoString) (X Y : TargetFile), self.targets = [(kx, X), (ky, Y)] →
        (clearLagcyTargetFile all).Rules
          = [{ Name := X.Name, Ref := X.Name }, { Name := Y.Name, Ref := Y.Name }]) := by
  have hstore : (loadConfig_MakeAllTarget self).targets
      = self.targets.Set "_All".toList
          { Name := "_All".toList
            Targets := self.targets.Values.map
              (fun tf => ({ Name := tf.Name, Ref := tf.Name } : TargetRule)) } := by
    unfold loadConfig_MakeAllTarget
    rw [if_pos hflag, MakeAllTarget_loop]
    simp
  have hget := Dict_Get_Set self.targets "_All".toList
    { Name := "_All".toList
      Targets := self.targets.Values.map
        (fun tf => ({ Name := tf.Name, Ref := tf.Name } : TargetRule)) }
  refine ⟨_, by rw [hstore]; exact hget, ?_, ?_, ?_, ?_, ?_⟩
  · simp [clearLagcyTargetFile]
  · simp [clearLagcyTargetFile]
  · intro t ht
    simp only [clearLagcyTargetFile, List.nil_append] at ht
    obtain ⟨tf, _, rfl⟩ := List.mem_map.mp ht
    exact ⟨rfl, rfl, rfl, rfl, rfl⟩
  · intro ValidateRule hnone
    rw [(validate_stops ValidateRule _).2 hnone, Dict_Get_map_normalize, hstore, hget]
    rfl
  · intro kx ky X Y hxy
    simp [clearLagcyTargetFile, hxy, Dict.Values]

/-- C5 (the code at the failing input): `MakeAllTarget` is set and the store holds a loaded
document named `_All` followed by the target `Z`.  The synthesized `_All` replaces the loaded
one and, once normalised, has the two rules with `Ref` `_All` and `Ref` `Z`: the first refers
to the synthesized target itself, which is not another target.  `validate` with a check that
accepts every rule leaves exactly these rules under `_All`.  For the store of the two targets
`Logs` and `Browsers` the rules are the two with `Ref` `Logs` and `Ref` `Browsers`. -/
theorem C5_MakeAllTarget_refers_to_itself :
    selfReferenceExample.config_obj.MakeAllTarget = true ∧
    selfReferenceExample.targets.Keys = ["_All".toList, "Z".toList] ∧
    (loadConfig_MakeAllTarget selfReferenceExample).targets.Keys
      = ["Z".toList, "_All".toList] ∧
    ((loadConfig_MakeAllTarget selfReferenceExample).targets.Get "_All".toList).map
        (fun all => (clearLagcyTargetFile all).Rules.map (fun t => t.Ref))
      = some ["_All".toList, "Z".toList] ∧
    (validate (fun _ _ _ => none) (loadConfig_MakeAllTarget selfReferenceExample)).2.2 = none ∧
    ((validate (fun _ _ _ => none)
          (loadConfig_MakeAllTarget selfReferenceExample)).1.targets.Get "_All".toList).map
        (fun all => all.Rules.map (fun t => t.Ref))
      = some ["_All".toList, "Z".toList] ∧
    ((loadConfig_MakeAllTarget allExample).targets.Get "_All".toList).map
        (fun all => (clearLagcyTargetFile all).Rules.map (fun t => t.Ref))
      = some ["Logs".toList, "Browsers".toList] :=
  ⟨rfl, by decide, by decide, by decide, by decide, by decide, by decide⟩

/-! ## Dependency extraction -/

theorem artifactQualifier_eq :
    "Artifact.".toList = ['A', 'r', 't', 'i', 'f', 'a', 'c', 't', '.'] := by decide

theorem takeWhile_run {α : Type} (p : α → Bool) (run : List α) (x : α) (rest : List α)
    (hrun : ∀ c ∈ run, p c = true) (hx : p x = false) :
    (run ++ x :: rest).takeWhile p = run := by
  induction run with
  | nil => simp [List.takeWhile, hx]
  | cons c cs ih =>
    have hc : p c = true := hrun c (List.mem_cons_self _ _)
    simp [List.takeWhile, hc, ih (fun y hy => hrun y (List.mem_cons_of_mem _ hy))]

theorem regex_match_sound (s name : GoString) (n : Nat)
    (h : artifact_in_query_regex_match s = some (name, n)) :
    name ≠ [] ∧ (∀ c ∈ name, isNameChar c = true) ∧ n = 9 + name.length + 1 ∧
      ∃ after, s = "Artifact.".toList ++ name ++ '(' :: after := by
  unfold artifact_in_query_regex_match at h
  by_cases hp : "Artifact.".toList.isPrefixOf s = true
  · rw [if_pos hp] at h
    obtain ⟨t, ht⟩ := List.isPrefixOf_iff_prefix.mp hp
    have hdrop : s.drop 9 = t := by
      rw [← ht]; exact List.drop_left' (by decide)
    rw [hdrop] at h
    have hsplit := List.takeWhile_append_dropWhile isNameChar t
    dsimp only at h
    rw [drop_length_takeWhile] at h
    cases hrun : t.takeWhile isNameChar with
    | nil => rw [hrun] at h; simp at h
    | cons c cs =>
      cases hrest : t.dropWhile isNameChar with
      | nil => rw [hrun, hrest] at h; simp at h
      | cons d ds =>
        rw [hrun, hrest] at h
        by_cases hd : d = '('
        · subst hd
          simp only [Option.some.injEq, Prod.mk.injEq] at h
          obtain ⟨h1, h2⟩ := h
          subst h1
          refine ⟨by simp, ?_, h2.symm, ds, ?_⟩
          · intro x hx
            rw [← hrun] at hx
            exact List.mem_takeWhile_imp hx
          · rw [← ht, ← hsplit, hrun, hrest]; simp
        · exfalso
          revert h
          split
          · rename_i heq1 heq2
            simp only [List.cons.injEq] at heq2
            exact absurd heq2.1 hd
          · simp
  · rw [if_neg hp] at h
    simp at h

theorem regex_match_complete (name after : GoString) (hne : name ≠ [])
    (hname : ∀ c ∈ name, isNameChar c = true) :
    artifact_in_query_regex_match ("Artifact.".toList ++ name ++ '(' :: after)
      = some (name, 9 + name.length + 1) := by
  unfold artifact_in_query_regex_match
  have hp : "Artifact.".toList.isPrefixOf ("Artifact.".toList ++ name ++ '(' :: after) = true := by
    rw [List.isPrefixOf_iff_prefix, List.append_assoc]
    exact List.prefix_append _ _
  rw [if_pos hp]
  have hdrop : ("Artifact.".toList ++ name ++ '(' :: after).drop 9 = name ++ '(' :: after := by
    rw [List.append_assoc]; exact List.drop_left' (by decide)
  rw [hdrop]
  have htw : (name ++ '(' :: after).takeWhile isNameChar = name :=
    takeWhile_run isNameChar name '(' after hname (by decide)
  simp only [htw]
  have hdrop2 : (name ++ '(' :: after).drop name.length = '(' :: after := List.drop_left' rfl
  rw [hdrop2]
  cases name with
  | nil => exact absurd rfl hne
  | cons c cs => rfl

theorem findAll_skip (k : Nat) (s : GoString) :
    artifact_in_query_regex_FindAllStringSubmatch k s
      = artifact_in_query_regex_FindAllStringSubmatch 0 (s.drop k) := by
  induction s generalizing k with
  | nil => simp [artifact_in_query_regex_FindAllStringSubmatch]
  | cons c cs ih =>
    cases k with
    | zero => simp
    | succ k => simp [artifact_in_query_regex_FindAllStringSubmatch, ih k]

theorem occursAsCall_cons (c : Char) (s name : GoString) (h : occursAsCall s name) :
    occursAsCall (c :: s) name := by
  obtain ⟨h1, h2, before, after, h3⟩ := h
  exact ⟨h1, h2, c :: before, after, by rw [h3]; simp⟩

theorem findAll_sound (s : GoString) (k : Nat) :
    ∀ w ∈ artifact_in_query_regex_FindAllStringSubmatch k s, occursAsCall s w := by
  induction s generalizing k with
  | nil => simp [artifact_in_query_regex_FindAllStringSubmatch]
  | cons c cs ih =>
    intro w hw
    cases k with
    | succ k =>
      rw [artifact_in_query_regex_FindAllStringSubmatch] at hw
      exact occursAsCall_cons c cs w (ih k w hw)
    | zero =>
      rw [artifact_in_query_regex_FindAllStringSubmatch] at hw
      cases hm : artifact_in_query_regex_match (c :: cs) with
      | none =>
        rw [hm] at hw
        exact occursAsCall_cons c cs w (ih 0 w hw)
      | some hit =>
        obtain ⟨name, n⟩ := hit
        rw [hm] at hw
        rcases List.mem_cons.mp hw with h | h
        · subst h
          obtain ⟨h1, h2, _, after, h4⟩ := regex_match_sound _ _ _ hm
          exact ⟨h1, h2, [], after, by rw [h4]; simp⟩
        · exact occursAsCall_cons c cs w (ih _ w h)

theorem artifactQualifier_nameChars : ∀ c ∈ "Artifact.".toList, isNameChar c = true := by
  decide

theorem nested_call (run after2 before name after : GoString)
    (hrun : ∀ c ∈ run, isNameChar c = true) (hname : ∀ c ∈ name, isNameChar c = true)
    (heq : "Artifact.".toList ++ run ++ '(' :: after2
      = before ++ "Artifact.".toList ++ name ++ '(' :: after)
    (hne : before ≠ []) (hlen : before.length < 9 + run.length + 1) :
    ∃ p, run = p ++ "Artifact.".toList ++ name := by
  have hA9 : "Artifact.".toList.length = 9 := by decide
  -- the inner qualifier cannot start inside the outer one
  have h9 : 9 ≤ before.length := by
    by_contra hlt
    have hm : before.length < 9 := Nat.lt_of_not_le hlt
    have hpos : 0 < before.length := List.length_pos.mpr hne
    have h1 : ("Artifact.".toList ++ run ++ '(' :: after2)[before.length]? = some 'A' := by
      rw [heq, List.append_assoc, List.append_assoc,
        List.getElem?_append_right (le_refl _), Nat.sub_self]
      rfl
    have h2 : ("Artifact.".toList ++ run ++ '(' :: after2)[before.length]?
        = "Artifact.".toList[before.length]? := by
      rw [List.append_assoc, List.getElem?_append_left (by rw [hA9]; exact hm)]
    rw [h2, artifactQualifier_eq] at h1
    generalize before.length = m at h1 hm hpos
    interval_cases m <;> simp at h1
  -- so the outer qualifier is a prefix of `before`
  have hpre : "Artifact.".toList <+: before := by
    have hp1 : "Artifact.".toList <+: "Artifact.".toList ++ run ++ '(' :: after2 := by
      rw [List.append_assoc]; exact List.prefix_append _ _
    have hp2 : before <+: "Artifact.".toList ++ run ++ '(' :: after2 := by
      rw [heq, List.append_assoc, List.append_assoc]; exact List.prefix_append _ _
    exact List.prefix_of_prefix_length_le hp1 hp2 (by rw [hA9]; exact h9)
  obtain ⟨b2, hb2⟩ := hpre
  subst hb2
  have heq2 : run ++ '(' :: after2 = b2 ++ ("Artifact.".toList ++ name ++ '(' :: after) := by
    have : "Artifact.".toList ++ (run ++ '(' :: after2)
        = "Artifact.".toList ++ (b2 ++ ("Artifact.".toList ++ name ++ '(' :: after)) := by
      simpa [List.append_assoc] using heq
    exact List.append_cancel_left this
  have hlen2 : b2.length ≤ run.length := by
    rw [List.length_append, hA9] at hlen
    omega
  have hpre2 : b2 <+: run := by
    have hp1 : b2 <+: run ++ '(' :: after2 := by
      rw [heq2]; exact List.prefix_append _ _
    have hp2 : run <+: run ++ '(' :: after2 := List.prefix_append _ _
    exact List.prefix_of_prefix_length_le hp1 hp2 hlen2
  obtain ⟨r2, hr2⟩ := hpre2
  subst hr2
  have heq3 : r2 ++ '(' :: after2 = ("Artifact.".toList ++ name) ++ '(' :: after := by
    have : b2 ++ (r2 ++ '(' :: after2)
        = b2 ++ (("Artifact.".toList ++ name) ++ '(' :: after) := by
      simpa [List.append_assoc] using heq2
    exact List.append_cancel_left this
  have ht1 := takeWhile_run isNameChar r2 '(' after2
    (fun c hc => hrun c (List.mem_append_right _ hc)) (by decide)
  have ht2 := takeWhile_run isNameChar ("Artifact.".toList ++ name) '(' after
    (fun c hc => by
      rcases List.mem_append.mp hc with h | h
      · exact artifactQualifier_nameChars c h
      · exact hname c h) (by decide)
  rw [heq3, ht2] at ht1
  exact ⟨b2, by rw [← ht1, List.append_assoc]⟩

theorem findAll_match_none (c : Char) (cs : GoString)
    (hm : artifact_in_query_regex_match (c :: cs) = none) :
    artifact_in_query_regex_FindAllStringSubmatch 0 (c :: cs)
      = artifact_in_query_regex_FindAllStringSubmatch 0 cs := by
  rw [artifact_in_query_regex_FindAllStringSubmatch, hm]

theorem findAll_match_some (s name : GoString) (n : Nat)
    (hm : artifact_in_query_regex_match s = some (name, n)) :
    artifact_in_query_regex_FindAllStringSubmatch 0 s
      = name :: artifact_in_query_regex_FindAllStringSubmatch 0 (s.drop n) := by
  obtain ⟨_, _, hn, _⟩ := regex_match_sound s name n hm
  cases s with
  | nil => simp [artifact_in_query_regex_match] at hm
  | cons c cs =>
    rw [artifact_in_query_regex_FindAllStringSubmatch, hm]
    simp only
    rw [findAll_skip, hn]
    rfl

theorem findAll_complete (n : Nat) :
    ∀ before name after : GoString, before.length ≤ n → name ≠ [] →
      (∀ c ∈ name, isNameChar c = true) →
      ∃ w ∈ artifact_in_query_regex_FindAllStringSubmatch 0
          (before ++ "Artifact.".toList ++ name ++ '(' :: after),
        w = name ∨ ∃ p, w = p ++ "Artifact.".toList ++ name := by
  induction n with
  | zero =>
    intro before name after hlen hne hname
    have hb : before = [] := List.length_eq_zero.mp (Nat.le_zero.mp hlen)
    subst hb
    rw [List.nil_append, findAll_match_some _ _ _ (regex_match_complete name after hne hname)]
    exact ⟨name, List.mem_cons_self _ _, Or.inl rfl⟩
  | succ m ih =>
    intro before name after hlen hne hname
    cases before with
    | nil =>
      rw [List.nil_append, findAll_match_some _ _ _ (regex_match_complete name after hne hname)]
      exact ⟨name, List.mem_cons_self _ _, Or.inl rfl⟩
    | cons c b2 =>
      have hb2 : b2.length ≤ m := by simpa using hlen
      cases hm : artifact_in_query_regex_match
          ((c :: b2) ++ "Artifact.".toList ++ name ++ '(' :: after) with
      | none =>
        have hcons : (c :: b2) ++ "Artifact.".toList ++ name ++ '(' :: after
            = c :: (b2 ++ "Artifact.".toList ++ name ++ '(' :: after) := by simp
        rw [hcons] at hm ⊢
        rw [findAll_match_none c _ hm]
        exact ih b2 name after hb2 hne hname
      | some hit =>
        obtain ⟨run, len⟩ := hit
        rw [findAll_match_some _ _ _ hm]
        obtain ⟨_, hrun, hn, after2, hs⟩ := regex_match_sound _ _ _ hm
        by_cases hle : len ≤ (c :: b2).length
        · have hdrop : ((c :: b2) ++ "Artifact.".toList ++ name ++ '(' :: after).drop len
              = (c :: b2).drop len ++ "Artifact.".toList ++ name ++ '(' :: after := by
            rw [List.append_assoc, List.append_assoc, List.drop_append_of_le_length hle]
            simp
          have hshort : ((c :: b2).drop len).length ≤ m := by
            rw [List.length_drop]
            simp only [List.length_cons] at hlen ⊢
            omega
          obtain ⟨w, hw, hw2⟩ := ih ((c :: b2).drop len) name after hshort hne hname
          rw [hdrop]
          exact ⟨w, List.mem_cons_of_mem _ hw, hw2⟩
        · have hlt : (c :: b2).length < 9 + run.length + 1 := by omega
          obtain ⟨p, hp⟩ := nested_call run after2 (c :: b2) name after hrun hname hs.symm
            (by simp) hlt
          exact ⟨run, List.mem_cons_self _ _, Or.inr ⟨p, hp⟩⟩

theorem deps_set_foldl_mem (names deps : List GoString) (w : GoString) :
    w ∈ names.foldl deps_set deps ↔ w ∈ deps ∨ w ∈ names := by
  induction names generalizing deps with
  | nil => simp
  | cons a rest ih =>
    rw [List.foldl_cons, ih]
    unfold deps_set
    by_cases ha : a ∈ deps
    · rw [if_pos ha]
      constructor
      · rintro (h | h)
        · exact Or.inl h
        · exact Or.inr (List.mem_cons_of_mem _ h)
      · rintro (h | h)
        · exact Or.inl h
        · rcases List.mem_cons.mp h with h2 | h2
          · subst h2; exact Or.inl ha
          · exact Or.inr h2
    · rw [if_neg ha]
      simp only [List.mem_append, List.mem_singleton, List.mem_cons]
      tauto

theorem deps_set_foldl_nodup (names deps : List GoString) (h : deps.Nodup) :
    (names.foldl deps_set deps).Nodup := by
  induction names generalizing deps with
  | nil => exact h
  | cons a rest ih =>
    rw [List.foldl_cons]
    apply ih
    unfold deps_set
    by_cases ha : a ∈ deps
    · rw [if_pos ha]; exact h
    · rw [if_neg ha]
      exact List.Nodup.append h (List.nodup_singleton a)
        (fun x hx hx2 => ha (by rw [List.mem_singleton] at hx2; rw [← hx2]; exact hx))

/-- C6 (counterexample): in `SELECT * FROM Artifact.Custom.Artifact.Foo()` the identifier `Foo`
is immediately preceded by `Artifact.` and immediately followed by `(`, yet it is not in the
dependency set, which holds `Custom.Artifact.Foo` only. -/
theorem C6_nested_identifier_not_added :
    occursAsCall "SELECT * FROM Artifact.Custom.Artifact.Foo()".toList "Foo".toList ∧
    "Foo".toList
      ∉ GetDependentArtifacts [] "SELECT * FROM Artifact.Custom.Artifact.Foo()".toList ∧
    GetDependentArtifacts [] "SELECT * FROM Artifact.Custom.Artifact.Foo()".toList
      = ["Custom.Artifact.Foo".toList] :=
  ⟨⟨by decide, by decide, "SELECT * FROM Artifact.Custom.".toList, ")".toList, by decide⟩,
    by decide, by decide⟩

/-- C6 (amended): `GetDependentArtifacts` removes nothing from the dependency set and keeps it
free of duplicates; every name it adds is an identifier that occurs in the query immediately
preceded by `Artifact.` and immediately followed by `(`; every such occurrence is in the set
afterwards, either itself or, when it lies inside a longer such identifier, as the tail of that
longer identifier behind an inner `Artifact.`.  From the empty set the body
`SELECT * FROM Artifact.Windows.System.Foo()` gives the set of `Windows.System.Foo`, a body with
two different calls gives two elements and a body repeating one call gives one element. -/
theorem C6_GetDependentArtifacts_adds_called_artifacts (deps : List GoString)
    (query : GoString) :
    (∀ w ∈ deps, w ∈ GetDependentArtifacts deps query) ∧
    (deps.Nodup → (GetDependentArtifacts deps query).Nodup) ∧
    (∀ w ∈ GetDependentArtifacts deps query, w ∈ deps ∨ occursAsCall query w) ∧
    (∀ name, occursAsCall query name →
      ∃ w ∈ GetDependentArtifacts deps query,
        w = name ∨ ∃ p, w = p ++ "Artifact.".toList ++ name) ∧
    GetDependentArtifacts [] "SELECT * FROM Artifact.Windows.System.Foo()".toList
      = ["Windows.System.Foo".toList] ∧
    GetDependentArtifacts []
        "SELECT * FROM Artifact.Windows.System.Foo() WHERE Artifact.Generic.Bar(x=1)".toList
      = ["Windows.System.Foo".toList, "Generic.Bar".toList] ∧
    GetDependentArtifacts []
        "SELECT * FROM Artifact.Windows.System.Foo() WHERE Artifact.Windows.System.Foo(x=1)".toList
      = ["Windows.System.Foo".toList] := by
  refine ⟨?_, ?_, ?_, ?_, by decide, by decide, by decide⟩
  · intro w hw
    exact (deps_set_foldl_mem _ _ _).mpr (Or.inl hw)
  · exact deps_set_foldl_nodup _ _
  · intro w hw
    rcases (deps_set_foldl_mem _ _ _).mp hw with h | h
    · exact Or.inl h
    · exact Or.inr (findAll_sound query 0 w h)
  · rintro name ⟨hne, hname, before, after, hq⟩
    obtain ⟨w, hw, hw2⟩ :=
      findAll_complete before.length before name after (le_refl _) hne hname
    rw [← hq] at hw
    exact ⟨w, (deps_set_foldl_mem _ _ _).mpr (Or.inr hw), hw2⟩
